import Mathlib

/-!
Verification of the S3 SigV4 signing routine of `satstac/utils.py`
(`get_s3_signed_url` and its helpers) against the repository's
natural-language specification.

Modelling choices (shallow embedding):
* Python strings are modelled as `List Char` (sequences of Unicode
  scalar values).  String literals are injected with `strOf`.
* Python bytes objects are modelled as `List Nat` (one entry per byte).
* `str.replace(old, new)` (replace every non-overlapping occurrence,
  scanning left to right) is `strReplace`; `str.split('/')` is
  `splitChar '/'`; `'/'.join` is `joinChar '/'`; `str.encode('utf-8')`
  is `utf8Encode`; `.hexdigest()` formatting is `hexOfBytes`.
* The SHA-256 compression core and the HMAC core of `hashlib` / `hmac`
  are deterministic primitives of the Python standard library; they are
  modelled as an abstract parameter `Crypto` (a pair of functions
  bytes→bytes and key×message→bytes).  Every claim under verification is
  about the strings fed to these primitives and about how their outputs
  are chained and formatted, never about the digests themselves, so all
  theorems are proved for an arbitrary `Crypto` instance.
* The ambient clock (`datetime.datetime.utcnow()`) is an explicit
  parameter `t : UTCTime`; `strftime('%Y%m%dT%H%M%SZ')` and
  `strftime('%Y%m%d')` are `fmtAmzdate` / `fmtDatestamp`.
* The environment reads of `AWS_ACCESS_KEY_ID` / `AWS_SECRET_ACCESS_KEY`
  are explicit `Option Str` parameters.
-/

namespace Satstac

/-- Python strings: sequences of Unicode scalar values. -/
abbrev Str := List Char

/-- Inject a Lean string literal as a `Str`. -/
def strOf (s : String) : Str := s.data

/-- `leadsWith pat s` is true when `pat` is an initial segment of `s`
(the test Python's `str.replace` scanner performs at each position). -/
def leadsWith : Str → Str → Bool
  | [], _ => true
  | _ :: _, [] => false
  | p :: ps, c :: cs => (p == c) && leadsWith ps cs

/-- `containsSub pat s` is true when `pat` occurs as a contiguous
substring of `s` (at any position, the empty pattern occurring always). -/
def containsSub (pat : Str) : Str → Bool
  | [] => leadsWith pat []
  | c :: cs => leadsWith pat (c :: cs) || containsSub pat cs

/-- Fuel-indexed worker for `strReplace`; the fuel only bounds the
recursion depth and is irrelevant once it reaches the input's length. -/
def strReplaceF (pat rep : Str) : Nat → Str → Str
  | _, [] => []
  | 0, c :: cs => c :: cs
  | fuel + 1, c :: cs =>
    if leadsWith pat (c :: cs) then
      rep ++ strReplaceF pat rep fuel (List.drop (pat.length - 1) cs)
    else
      c :: strReplaceF pat rep fuel cs

/-- Python `s.replace(pat, rep)` for a non-empty `pat`: scan left to
right, replacing each non-overlapping occurrence of `pat` by `rep`. -/
def strReplace (pat rep s : Str) : Str := strReplaceF pat rep s.length s

/-- Python `s.split(sep)` for a one-character separator: split at every
occurrence of `sep`, keeping empty segments, `''.split(sep) = ['']`. -/
def splitChar (sep : Char) : Str → List Str
  | [] => [[]]
  | c :: cs =>
    if c = sep then [] :: splitChar sep cs
    else (c :: (splitChar sep cs).headI) :: (splitChar sep cs).tail

/-- Python `sep.join(xs)` for a one-character separator. -/
def joinChar (sep : Char) : List Str → Str
  | [] => []
  | [x] => x
  | x :: y :: xs => x ++ sep :: joinChar sep (y :: xs)

/-- The decimal digit characters used by Python's `%d` formatting. -/
def digitChar (d : Nat) : Char :=
  if d = 0 then '0' else if d = 1 then '1' else if d = 2 then '2'
  else if d = 3 then '3' else if d = 4 then '4' else if d = 5 then '5'
  else if d = 6 then '6' else if d = 7 then '7' else if d = 8 then '8'
  else '9'

/-- Fuel-indexed worker for `natToDigits`; the fuel only bounds the
recursion depth and is irrelevant once it reaches the number itself. -/
def natToDigitsF : Nat → Nat → Str
  | 0, n => [digitChar n]
  | fuel + 1, n =>
    if n < 10 then [digitChar n]
    else natToDigitsF fuel (n / 10) ++ [digitChar (n % 10)]

/-- Decimal digits of a natural number, most significant first. -/
def natToDigits (n : Nat) : Str := natToDigitsF n n

/-- Zero-pad a decimal rendering to at least two characters
(`strftime`'s `%m`, `%d`, `%H`, `%M`, `%S`). -/
def pad2 (n : Nat) : Str :=
  List.replicate (2 - (natToDigits n).length) '0' ++ natToDigits n

/-- Zero-pad a decimal rendering to at least four characters
(`strftime`'s `%Y`). -/
def pad4 (n : Nat) : Str :=
  List.replicate (4 - (natToDigits n).length) '0' ++ natToDigits n

/-- A UTC wall-clock instant as captured by `datetime.datetime.utcnow()`.
`datetime` guarantees `1 ≤ year ≤ 9999`, `1 ≤ month ≤ 12`, `1 ≤ day ≤ 31`. -/
structure UTCTime where
  year : Nat
  month : Nat
  day : Nat
  hour : Nat
  minute : Nat
  second : Nat
deriving DecidableEq

/-- `t.strftime('%Y%m%dT%H%M%SZ')`. -/
def fmtAmzdate (t : UTCTime) : Str :=
  pad4 t.year ++ pad2 t.month ++ pad2 t.day ++
    'T' :: (pad2 t.hour ++ pad2 t.minute ++ pad2 t.second ++ ['Z'])

/-- `t.strftime('%Y%m%d')`. -/
def fmtDatestamp (t : UTCTime) : Str :=
  pad4 t.year ++ pad2 t.month ++ pad2 t.day

/-- UTF-8 encoding of one Unicode scalar value. -/
def utf8EncodeChar (c : Char) : List Nat :=
  let n := c.toNat
  if n < 0x80 then [n]
  else if n < 0x800 then [0xC0 + n / 64, 0x80 + n % 64]
  else if n < 0x10000 then
    [0xE0 + n / 4096, 0x80 + (n / 64) % 64, 0x80 + n % 64]
  else
    [0xF0 + n / 262144, 0x80 + (n / 4096) % 64, 0x80 + (n / 64) % 64,
      0x80 + n % 64]

/-- Python `s.encode('utf-8')`. -/
def utf8Encode (s : Str) : List Nat := s.flatMap utf8EncodeChar

/-- Lowercase hexadecimal digit characters. -/
def hexDigit (d : Nat) : Char :=
  if d < 10 then Char.ofNat (48 + d) else Char.ofNat (87 + d)

/-- Python's `.hexdigest()` formatting: each byte of the digest as two
lowercase hexadecimal characters. -/
def hexOfBytes (bs : List Nat) : Str :=
  bs.flatMap (fun b => [hexDigit (b / 16 % 16), hexDigit (b % 16)])

/-- The deterministic cryptographic primitives of `hashlib` / `hmac`,
abstracted: `sha256` maps a byte string to its digest bytes, `hmac` maps
a key and a message (both byte strings) to the HMAC-SHA256 digest bytes.
All theorems below hold for every instance. -/
structure Crypto where
  sha256 : List Nat → List Nat
  hmac : List Nat → List Nat → List Nat

/-- `hashlib.sha256(s.encode('utf-8')).hexdigest()`. -/
def sha256HexOfStr (C : Crypto) (s : Str) : Str :=
  hexOfBytes (C.sha256 (utf8Encode s))

/-- `utils.py` line 80: `sign(key, msg)` =
`hmac.new(key, msg.encode('utf-8'), hashlib.sha256).digest()`. -/
def sign (C : Crypto) (key : List Nat) (msg : Str) : List Nat :=
  C.hmac key (utf8Encode msg)

/-- `utils.py` lines 83-88: the SigV4 key-derivation chain. -/
def getSignatureKey (C : Crypto) (key dateStamp regionName serviceName : Str) :
    List Nat :=
  let kDate := sign C (utf8Encode (strOf "AWS4" ++ key)) dateStamp
  let kRegion := sign C kDate regionName
  let kService := sign C kRegion serviceName
  let kSigning := sign C kService (strOf "aws4_request")
  kSigning

/-- `utils.py` line 69: `parts = url.replace('https://', '').split('/')`. -/
def urlParts (url : Str) : List Str :=
  splitChar '/' (strReplace (strOf "https://") [] url)

/-- `utils.py` line 70: `bucket = parts[0].replace('.s3.amazonaws.com', '')`. -/
def bucketOf (url : Str) : Str :=
  strReplace (strOf ".s3.amazonaws.com") [] (urlParts url).headI

/-- `utils.py` line 71: `key = '/'.join(parts[1:])`. -/
def keyOf (url : Str) : Str :=
  joinChar '/' (urlParts url).tail

/-- `utils.py` line 73: `service = 's3'`. -/
def service : Str := strOf "s3"

/-- `utils.py` line 75 (the live assignment; line 74 is immediately
overwritten): `host = '%s.s3.amazonaws.com' % (bucket)`. -/
def hostOf (url : Str) : Str :=
  bucketOf url ++ strOf ".s3.amazonaws.com"

/-- `utils.py` line 76: `request_parameters = ''`. -/
def request_parameters : Str := []

/-- `utils.py` line 96: `canonical_uri = '/' + key`. -/
def canonical_uri (url : Str) : Str := '/' :: keyOf url

/-- `utils.py` line 97: `canonical_querystring = request_parameters`. -/
def canonical_querystring : Str := request_parameters

/-- `utils.py` line 98: `payload_hash = 'UNSIGNED-PAYLOAD'`. -/
def payload_hash : Str := strOf "UNSIGNED-PAYLOAD"

/-- `utils.py` line 99: the canonical headers block, built by the format
string `'host:%s\nx-amz-content-sha256:%s\nx-amz-date:%s\nx-amz-request-payer:requester\n' % (host, payload_hash, amzdate)`. -/
def canonical_headers (host amzdate : Str) : Str :=
  strOf "host:" ++ host ++ strOf "\nx-amz-content-sha256:" ++ payload_hash ++
    strOf "\nx-amz-date:" ++ amzdate ++ strOf "\nx-amz-request-payer:requester\n"

/-- `utils.py` line 100. -/
def signed_headers : Str :=
  strOf "host;x-amz-content-sha256;x-amz-date;x-amz-request-payer"

/-- `utils.py` line 101: `canonical_request = 'GET\n' + canonical_uri +
'\n' + canonical_querystring + '\n' + canonical_headers + '\n' +
signed_headers + '\n' + payload_hash`. -/
def canonical_request (url amzdate : Str) : Str :=
  strOf "GET\n" ++ canonical_uri url ++ '\n' :: canonical_querystring ++
    '\n' :: canonical_headers (hostOf url) amzdate ++
    '\n' :: signed_headers ++ '\n' :: payload_hash

/-- `utils.py` line 102: `algorithm = 'AWS4-HMAC-SHA256'`. -/
def algorithm : Str := strOf "AWS4-HMAC-SHA256"

/-- `utils.py` line 103: `credential_scope = datestamp + '/' + region +
'/' + service + '/' + 'aws4_request'`. -/
def credential_scope (region datestamp : Str) : Str :=
  datestamp ++ '/' :: region ++ '/' :: service ++ '/' :: strOf "aws4_request"

/-- `utils.py` line 104: the string-to-sign. -/
def string_to_sign (C : Crypto) (url region : Str) (t : UTCTime) : Str :=
  algorithm ++ '\n' :: fmtAmzdate t ++
    '\n' :: credential_scope region (fmtDatestamp t) ++
    '\n' :: sha256HexOfStr C (canonical_request url (fmtAmzdate t))

/-- `utils.py` line 105: `signing_key = getSignatureKey(secret_key,
datestamp, region, service)`. -/
def signing_key (C : Crypto) (secret region : Str) (t : UTCTime) : List Nat :=
  getSignatureKey C secret (fmtDatestamp t) region service

/-- `utils.py` line 106: `signature = hmac.new(signing_key,
string_to_sign.encode('utf-8'), hashlib.sha256).hexdigest()`. -/
def signature (C : Crypto) (secret url region : Str) (t : UTCTime) : Str :=
  hexOfBytes (C.hmac (signing_key C secret region t)
    (utf8Encode (string_to_sign C url region t)))

/-- `utils.py` line 107: the `Authorization` header value. -/
def authorization_header (C : Crypto) (access secret url region : Str)
    (t : UTCTime) : Str :=
  algorithm ++ ' ' :: strOf "Credential=" ++ access ++
    '/' :: credential_scope region (fmtDatestamp t) ++ strOf ", " ++
    strOf "SignedHeaders=" ++ signed_headers ++ strOf ", " ++
    strOf "Signature=" ++ signature C secret url region t

/-- `utils.py` line 108: the returned header mapping, in insertion order. -/
def headersMap (C : Crypto) (access secret url region : Str) (t : UTCTime) :
    List (Str × Str) :=
  [(strOf "x-amz-date", fmtAmzdate t),
   (strOf "x-amz-content-sha256", payload_hash),
   (strOf "Authorization", authorization_header C access secret url region t),
   (strOf "x-amz-request-payer", strOf "requester")]

/-- `utils.py` line 109: `request_url = 'https://%s%s' % (host,
canonical_uri)`. -/
def request_url (url : Str) : Str :=
  strOf "https://" ++ hostOf url ++ canonical_uri url

/-- `utils.py` lines 60-115: `get_s3_signed_url(url, region)`.  The
environment reads of the two credential variables and the single
`utcnow()` capture are explicit parameters; the region parameter
defaults to `'eu-central-1'` at call sites. -/
def get_s3_signed_url (C : Crypto) (access secret : Option Str) (t : UTCTime)
    (url region : Str) : Str × Option (List (Str × Str)) :=
  match access, secret with
  | some a, some k => (request_url url, some (headersMap C a k url region t))
  | _, _ => (url, none)

/-- Rendering of the canonical request following the specification's
words (claim C1): the newline-joined concatenation of the literal `GET`,
the canonical URI `/` + key, an empty canonical query string, the four
canonical headers in the fixed lower-cased order as `name:value` lines,
a blank line, the signed-headers list, and the literal
`UNSIGNED-PAYLOAD`.  To be compared with `canonical_request`. -/
def specCanonicalRequest (host key amzdate : Str) : Str :=
  joinChar '\n'
    [strOf "GET",
     '/' :: key,
     [],
     strOf "host:" ++ host,
     strOf "x-amz-content-sha256:" ++ strOf "UNSIGNED-PAYLOAD",
     strOf "x-amz-date:" ++ amzdate,
     strOf "x-amz-request-payer:requester",
     [],
     strOf "host;x-amz-content-sha256;x-amz-date;x-amz-request-payer",
     strOf "UNSIGNED-PAYLOAD"]

/-- Rendering of the string-to-sign following the specification's words
(claim C4): the newline-joined concatenation of the algorithm
identifier, the full timestamp, the credential scope
`<date>/<region>/s3/aws4_request`, and the lowercase hex digest of the
SHA-256 hash of the canonical request.  To be compared with
`string_to_sign`. -/
def specStringToSign (C : Crypto) (url region : Str) (t : UTCTime) : Str :=
  joinChar '\n'
    [strOf "AWS4-HMAC-SHA256",
     fmtAmzdate t,
     fmtDatestamp t ++ '/' :: region ++ strOf "/s3/aws4_request",
     sha256HexOfStr C (canonical_request url (fmtAmzdate t))]

/-- The name part of one `name:value` header line. -/
def headerNameOf (line : Str) : Str := line.takeWhile (fun c => c != ':')

/-- The header lines of a canonical headers block.  The block ends with
a newline, so splitting on newlines leaves a final empty segment, which
is discarded. -/
def headerLines (block : Str) : List Str := (splitChar '\n' block).dropLast

/-- The header names used to build a canonical headers block, in order. -/
def canonicalHeaderNames (block : Str) : List Str :=
  (headerLines block).map headerNameOf

/-- A malformed input in the sense of the specification's
failure-conditions section: the first path segment (the host) lacks the
storage-domain suffix, or the derived object key is empty. -/
def malformedUrl (url : Str) : Prop :=
  containsSub (strOf ".s3.amazonaws.com") (urlParts url).headI = false ∨
    keyOf url = []

/-- A concrete `Crypto` instance used to instantiate witnesses (the
theorems themselves hold for every instance). -/
def cryptoZero : Crypto where
  sha256 := fun _ => []
  hmac := fun _ _ => []

theorem strReplaceF_fuel_irrel (pat rep : Str) : ∀ f₁ f₂ : Nat, ∀ s : Str,
    s.length ≤ f₁ → s.length ≤ f₂ →
    strReplaceF pat rep f₁ s = strReplaceF pat rep f₂ s := by
  intro f₁
  induction f₁ with
  | zero =>
    intro f₂ s h1 _
    have hs : s = [] := List.length_eq_zero.mp (Nat.le_zero.mp h1)
    subst hs
    cases f₂ <;> rfl
  | succ f ih =>
    intro f₂ s h1 h2
    cases s with
    | nil => cases f₂ <;> rfl
    | cons c cs =>
      cases f₂ with
      | zero => simp at h2
      | succ g =>
        simp only [strReplaceF]
        simp only [List.length_cons] at h1 h2
        by_cases hl : leadsWith pat (c :: cs)
        · rw [if_pos hl, if_pos hl,
            ih g (List.drop (pat.length - 1) cs)
              (by rw [List.length_drop]; omega)
              (by rw [List.length_drop]; omega)]
        · rw [if_neg hl, if_neg hl, ih g cs (by omega) (by omega)]

theorem strReplace_nil (pat rep : Str) : strReplace pat rep [] = [] := rfl

theorem strReplace_cons (pat rep : Str) (c : Char) (cs : Str) :
    strReplace pat rep (c :: cs) =
      if leadsWith pat (c :: cs) then
        rep ++ strReplace pat rep (List.drop (pat.length - 1) cs)
      else c :: strReplace pat rep cs := by
  show strReplaceF pat rep (cs.length + 1) (c :: cs) = _
  simp only [strReplaceF]
  by_cases hl : leadsWith pat (c :: cs)
  · rw [if_pos hl, if_pos hl, strReplace,
      strReplaceF_fuel_irrel pat rep cs.length
        (List.drop (pat.length - 1) cs).length (List.drop (pat.length - 1) cs)
        (by rw [List.length_drop]; omega) (Nat.le_refl _)]
  · rw [if_neg hl, if_neg hl, strReplace]

theorem natToDigitsF_fuel_irrel : ∀ f₁ f₂ n : Nat, n ≤ f₁ → n ≤ f₂ →
    natToDigitsF f₁ n = natToDigitsF f₂ n := by
  intro f₁
  induction f₁ with
  | zero =>
    intro f₂ n h1 _
    have hn : n = 0 := Nat.le_zero.mp h1
    subst hn
    cases f₂ with
    | zero => rfl
    | succ g => simp [natToDigitsF]
  | succ f ih =>
    intro f₂ n h1 h2
    cases f₂ with
    | zero =>
      have hn : n = 0 := Nat.le_zero.mp h2
      subst hn
      simp [natToDigitsF]
    | succ g =>
      simp only [natToDigitsF]
      by_cases hlt : n < 10
      · rw [if_pos hlt, if_pos hlt]
      · rw [if_neg hlt, if_neg hlt,
          ih g (n / 10)
            (by have : n / 10 < n := Nat.div_lt_self (by omega) (by omega); omega)
            (by have : n / 10 < n := Nat.div_lt_self (by omega) (by omega); omega)]

theorem natToDigits_eq (n : Nat) :
    natToDigits n = if n < 10 then [digitChar n]
      else natToDigits (n / 10) ++ [digitChar (n % 10)] := by
  by_cases h : n < 10
  · rw [if_pos h]
    cases n with
    | zero => rfl
    | succ m =>
      show natToDigitsF (m + 1) (m + 1) = _
      simp only [natToDigitsF]
      rw [if_pos h]
  · rw [if_neg h]
    cases n with
    | zero => exact absurd (by omega) h
    | succ m =>
      show natToDigitsF (m + 1) (m + 1) = _
      simp only [natToDigitsF]
      rw [if_neg h,
        natToDigitsF_fuel_irrel m ((m + 1) / 10) ((m + 1) / 10)
          (by have : (m + 1) / 10 < m + 1 := Nat.div_lt_self (by omega) (by omega); omega)
          (Nat.le_refl _)]
      rfl

theorem leadsWith_self_append (p r : Str) : leadsWith p (p ++ r) = true := by
  induction p with
  | nil => rfl
  | cons a ps ih => simp [leadsWith, ih]

theorem leadsWith_iff_take (p : Str) : ∀ s : Str,
    leadsWith p s = true ↔ s.take p.length = p := by
  induction p with
  | nil => intro s; simp [leadsWith]
  | cons a ps ih =>
    intro s
    cases s with
    | nil => simp [leadsWith]
    | cons c cs =>
      simp only [leadsWith, Bool.and_eq_true, beq_iff_eq, ih,
        List.length_cons, List.take_succ_cons, List.cons.injEq]
      constructor
      · rintro ⟨h1, h2⟩; exact ⟨h1.symm, h2⟩
      · rintro ⟨h1, h2⟩; exact ⟨h1.symm, h2⟩

theorem containsSub_cons (pat : Str) (c : Char) (cs : Str) :
    containsSub pat (c :: cs) = (leadsWith pat (c :: cs) || containsSub pat cs) :=
  rfl

theorem containsSub_of_leadsWith_drop (pat : Str) : ∀ (b : Str) (i : Nat),
    leadsWith pat (List.drop i b) = true → containsSub pat b = true := by
  intro b
  induction b with
  | nil =>
    intro i h
    rw [List.drop_nil] at h
    exact h
  | cons c cs ih =>
    intro i h
    cases i with
    | zero =>
      rw [List.drop_zero] at h
      rw [containsSub_cons, h, Bool.true_or]
    | succ j =>
      rw [List.drop_succ_cons] at h
      rw [containsSub_cons, ih j h, Bool.or_true]

theorem strReplace_of_not_contains (pat rep : Str) : ∀ s : Str,
    containsSub pat s = false → strReplace pat rep s = s := by
  intro s
  induction s with
  | nil => intro _; rfl
  | cons c cs ih =>
    intro h
    rw [containsSub_cons, Bool.or_eq_false_iff] at h
    rw [strReplace_cons, if_neg (by simp [h.1]), ih h.2]

theorem strReplace_cons_self_append (a : Char) (ps rest : Str)
    (h : containsSub (a :: ps) rest = false) :
    strReplace (a :: ps) [] ((a :: ps) ++ rest) = rest := by
  have hlw : leadsWith (a :: ps) ((a :: ps) ++ rest) = true :=
    leadsWith_self_append (a :: ps) rest
  rw [List.cons_append] at hlw
  rw [List.cons_append, strReplace_cons, if_pos hlw]
  simp only [List.length_cons, Nat.add_sub_cancel, List.nil_append]
  rw [List.drop_left, strReplace_of_not_contains _ _ _ h]

theorem strReplace_self_append (pat rest : Str) (hp : pat ≠ [])
    (h : containsSub pat rest = false) :
    strReplace pat [] (pat ++ rest) = rest := by
  cases pat with
  | nil => exact absurd rfl hp
  | cons a ps => exact strReplace_cons_self_append a ps rest h

theorem strReplace_append_self (pat : Str) (hp : pat ≠ []) : ∀ b : Str,
    (∀ i, i < b.length → leadsWith pat (List.drop i (b ++ pat)) = false) →
    strReplace pat [] (b ++ pat) = b := by
  intro b
  induction b with
  | nil =>
    intro _
    rw [List.nil_append]
    have h0 := strReplace_self_append pat [] hp (by cases pat with
      | nil => exact absurd rfl hp
      | cons q qs => rfl)
    rwa [List.append_nil] at h0
  | cons c cs ih =>
    intro h
    have h0 : leadsWith pat (c :: (cs ++ pat)) = false := by
      have := h 0 (by simp)
      rwa [List.drop_zero, List.cons_append] at this
    rw [List.cons_append, strReplace_cons, if_neg (by simp [h0])]
    rw [ih (fun i hi => by
      have := h (i + 1) (by simp only [List.length_cons]; omega)
      rwa [List.cons_append, List.drop_succ_cons] at this)]

theorem noOverlap_of_not_contains (sfx b : Str)
    (hc : containsSub sfx b = false)
    (hnp : ∀ k, 0 < k → k < sfx.length →
      sfx.drop k ≠ sfx.take (sfx.length - k)) :
    ∀ i, i < b.length → leadsWith sfx (List.drop i (b ++ sfx)) = false := by
  intro i hi
  cases hlw : leadsWith sfx (List.drop i (b ++ sfx)) with
  | false => rfl
  | true =>
    exfalso
    have hd : List.drop i (b ++ sfx) = List.drop i b ++ sfx :=
      List.drop_append_of_le_length (Nat.le_of_lt hi)
    rw [hd, leadsWith_iff_take, List.take_append_eq_append_take] at hlw
    by_cases hk : sfx.length ≤ (List.drop i b).length
    · rw [Nat.sub_eq_zero_of_le hk, List.take_zero, List.append_nil] at hlw
      have hin : leadsWith sfx (List.drop i b) = true :=
        (leadsWith_iff_take sfx (List.drop i b)).2 hlw
      rw [containsSub_of_leadsWith_drop sfx b i hin] at hc
      exact absurd hc (by simp)
    · push_neg at hk
      rw [List.take_of_length_le (Nat.le_of_lt hk)] at hlw
      have hdrop := congrArg (List.drop (List.drop i b).length) hlw
      rw [List.drop_left] at hdrop
      have hm : 0 < (List.drop i b).length := by
        rw [List.length_drop]; omega
      exact hnp (List.drop i b).length hm hk hdrop.symm

theorem splitChar_ne_nil (sep : Char) (s : Str) : splitChar sep s ≠ [] := by
  cases s with
  | nil => simp [splitChar]
  | cons c cs =>
    by_cases h : c = sep
    · simp [splitChar, h]
    · simp [splitChar, h]

theorem splitChar_append_sep (sep : Char) (B : Str) : ∀ A : Str, sep ∉ A →
    splitChar sep (A ++ sep :: B) = A :: splitChar sep B := by
  intro A
  induction A with
  | nil => intro _; simp [splitChar]
  | cons a as ih =>
    intro h
    have ha : ¬ a = sep := fun hEq => h (hEq ▸ List.mem_cons_self a as)
    have h' : sep ∉ as := fun hm => h (List.mem_cons_of_mem a hm)
    rw [List.cons_append, splitChar, if_neg ha, ih h']
    rfl

theorem joinChar_splitChar (sep : Char) (s : Str) :
    joinChar sep (splitChar sep s) = s := by
  induction s with
  | nil => rfl
  | cons c cs ih =>
    obtain ⟨x, xs, hx⟩ : ∃ x xs, splitChar sep cs = x :: xs := by
      cases hsc : splitChar sep cs with
      | nil => exact absurd hsc (splitChar_ne_nil sep cs)
      | cons x xs => exact ⟨x, xs, rfl⟩
    rw [hx] at ih
    by_cases h : c = sep
    · subst h
      rw [splitChar, if_pos rfl, hx]
      exact congrArg (List.cons c) ih
    · rw [splitChar, if_neg h, hx]
      cases xs with
      | nil => exact congrArg (List.cons c) ih
      | cons y ys => exact congrArg (List.cons c) ih

theorem digitChar_mem (d : Nat) : digitChar d ∈ strOf "0123456789" := by
  unfold digitChar
  repeat' split
  all_goals decide

theorem natToDigits_chars (n : Nat) :
    ∀ c ∈ natToDigits n, c ∈ strOf "0123456789" := by
  induction n using Nat.strong_induction_on with
  | _ n ih =>
    rw [natToDigits_eq]
    by_cases h : n < 10
    · rw [if_pos h]
      intro c hc
      rw [List.mem_singleton] at hc
      subst hc
      exact digitChar_mem n
    · rw [if_neg h]
      intro c hc
      rw [List.mem_append] at hc
      rcases hc with hc | hc
      · exact ih (n / 10) (Nat.div_lt_self (by omega) (by omega)) c hc
      · rw [List.mem_singleton] at hc
        subst hc
        exact digitChar_mem _

theorem pad2_chars (n : Nat) : ∀ c ∈ pad2 n, c ∈ strOf "0123456789" := by
  intro c hc
  rw [pad2, List.mem_append] at hc
  rcases hc with hc | hc
  · rw [List.mem_replicate] at hc
    rw [hc.2]
    decide
  · exact natToDigits_chars n c hc

theorem pad4_chars (n : Nat) : ∀ c ∈ pad4 n, c ∈ strOf "0123456789" := by
  intro c hc
  rw [pad4, List.mem_append] at hc
  rcases hc with hc | hc
  · rw [List.mem_replicate] at hc
    rw [hc.2]
    decide
  · exact natToDigits_chars n c hc

theorem fmtAmzdate_chars (t : UTCTime) :
    ∀ c ∈ fmtAmzdate t, c ∈ strOf "0123456789TZ" := by
  intro c hc
  have hsub : ∀ x ∈ strOf "0123456789", x ∈ strOf "0123456789TZ" := by decide
  simp only [fmtAmzdate, List.mem_append, List.mem_cons,
    List.mem_singleton] at hc
  rcases hc with ((hc | hc) | hc) | hc | ((hc | hc) | hc) | hc | hc
  · exact hsub c (pad4_chars t.year c hc)
  · exact hsub c (pad2_chars t.month c hc)
  · exact hsub c (pad2_chars t.day c hc)
  · rw [hc]; decide
  · exact hsub c (pad2_chars t.hour c hc)
  · exact hsub c (pad2_chars t.minute c hc)
  · exact hsub c (pad2_chars t.second c hc)
  · rw [hc]; decide
  · exact absurd hc (List.not_mem_nil c)

theorem fmtAmzdate_no_newline (t : UTCTime) : '\n' ∉ fmtAmzdate t := fun h =>
  absurd (fmtAmzdate_chars t '\n' h) (by decide)

theorem takeWhile_name (rest : Str) : ∀ pre : Str, ':' ∉ pre →
    List.takeWhile (fun c => c != ':') (pre ++ ':' :: rest) = pre := by
  intro pre
  induction pre with
  | nil => intro _; simp [List.takeWhile_cons]
  | cons a as ih =>
    intro h
    have ha : ¬ a = ':' := fun hEq => h (hEq ▸ List.mem_cons_self a as)
    have h' : ':' ∉ as := fun hm => h (List.mem_cons_of_mem a hm)
    rw [List.cons_append, List.takeWhile_cons, if_pos (by simp [ha]), ih h']

theorem natToDigits_length_le : ∀ k n : Nat, n < 10 ^ (k + 1) →
    (natToDigits n).length ≤ k + 1 := by
  intro k
  induction k with
  | zero =>
    intro n h
    rw [natToDigits_eq, if_pos (by simpa using h)]
    simp
  | succ j ih =>
    intro n h
    rw [natToDigits_eq]
    by_cases h10 : n < 10
    · rw [if_pos h10]
      simp
    · rw [if_neg h10, List.length_append]
      have hdiv : n / 10 < 10 ^ (j + 1) := by
        rw [Nat.div_lt_iff_lt_mul (by omega)]
        calc n < 10 ^ (j + 2) := h
        _ = 10 ^ (j + 1) * 10 := by ring
      have := ih (n / 10) hdiv
      simp only [List.length_singleton]
      omega

theorem pad2_length (n : Nat) (h : n < 100) : (pad2 n).length = 2 := by
  rw [pad2, List.length_append, List.length_replicate]
  have := natToDigits_length_le 1 n (by simpa using h)
  omega

theorem pad4_length (n : Nat) (h : n < 10000) : (pad4 n).length = 4 := by
  rw [pad4, List.length_append, List.length_replicate]
  have := natToDigits_length_le 3 n (by simpa using h)
  omega

theorem fmtDatestamp_take (t : UTCTime) (hy : t.year ≤ 9999)
    (hm : t.month ≤ 12) (hd : t.day ≤ 31) :
    (fmtAmzdate t).take 8 = fmtDatestamp t := by
  have h1 : (pad4 t.year).length = 4 := pad4_length _ (by omega)
  have h2 : (pad2 t.month).length = 2 := pad2_length _ (by omega)
  have h3 : (pad2 t.day).length = 2 := pad2_length _ (by omega)
  show (pad4 t.year ++ pad2 t.month ++ pad2 t.day ++
      'T' :: (pad2 t.hour ++ pad2 t.minute ++ pad2 t.second ++ ['Z'])).take 8
    = fmtDatestamp t
  rw [List.take_append_eq_append_take,
    List.take_of_length_le (by simp [h1, h2, h3]),
    show 8 - (pad4 t.year ++ pad2 t.month ++ pad2 t.day).length = 0 by
      simp [h1, h2, h3],
    List.take_zero, List.append_nil]
  rfl

theorem s3suffix_no_period : ∀ k, k < (strOf ".s3.amazonaws.com").length →
    0 < k → (strOf ".s3.amazonaws.com").drop k ≠
      (strOf ".s3.amazonaws.com").take ((strOf ".s3.amazonaws.com").length - k) := by
  decide

theorem parse_url (bucket keypath : Str)
    (hb : '/' ∉ bucket)
    (hbs : containsSub (strOf ".s3.amazonaws.com") bucket = false)
    (hh : containsSub (strOf "https://")
      (bucket ++ strOf ".s3.amazonaws.com/" ++ keypath) = false) :
    hostOf (strOf "https://" ++ bucket ++ strOf ".s3.amazonaws.com/" ++ keypath)
      = bucket ++ strOf ".s3.amazonaws.com" ∧
    keyOf (strOf "https://" ++ bucket ++ strOf ".s3.amazonaws.com/" ++ keypath)
      = keypath := by
  have hgroup : strOf "https://" ++ bucket ++ strOf ".s3.amazonaws.com/" ++ keypath
      = strOf "https://" ++ (bucket ++ (strOf ".s3.amazonaws.com/" ++ keypath)) := by
    simp [List.append_assoc]
  have hh2 : containsSub (strOf "https://")
      (bucket ++ (strOf ".s3.amazonaws.com/" ++ keypath)) = false := by
    rw [← List.append_assoc]
    exact hh
  rw [hgroup]
  have hstrip : strReplace (strOf "https://") []
      (strOf "https://" ++ (bucket ++ (strOf ".s3.amazonaws.com/" ++ keypath)))
      = bucket ++ (strOf ".s3.amazonaws.com/" ++ keypath) :=
    strReplace_self_append _ _ (by decide) hh2
  have hshape : strOf ".s3.amazonaws.com/" ++ keypath
      = strOf ".s3.amazonaws.com" ++ '/' :: keypath := rfl
  have hsplit : splitChar '/' (bucket ++ (strOf ".s3.amazonaws.com/" ++ keypath))
      = (bucket ++ strOf ".s3.amazonaws.com") :: splitChar '/' keypath := by
    rw [hshape, ← List.append_assoc]
    refine splitChar_append_sep '/' keypath (bucket ++ strOf ".s3.amazonaws.com") ?_
    rw [List.mem_append]
    rintro (h1 | h2)
    · exact hb h1
    · exact absurd h2 (by decide)
  have hparts : urlParts
      (strOf "https://" ++ (bucket ++ (strOf ".s3.amazonaws.com/" ++ keypath)))
      = (bucket ++ strOf ".s3.amazonaws.com") :: splitChar '/' keypath := by
    show splitChar '/' (strReplace (strOf "https://") []
      (strOf "https://" ++ (bucket ++ (strOf ".s3.amazonaws.com/" ++ keypath)))) = _
    rw [hstrip, hsplit]
  have hbucket : strReplace (strOf ".s3.amazonaws.com") []
      (bucket ++ strOf ".s3.amazonaws.com") = bucket := by
    refine strReplace_append_self _ (by decide) bucket ?_
    exact noOverlap_of_not_contains _ bucket hbs
      (fun k hk0 hklen => s3suffix_no_period k hklen hk0)
  constructor
  · show strReplace (strOf ".s3.amazonaws.com") []
      (urlParts (strOf "https://" ++ (bucket ++ (strOf ".s3.amazonaws.com/" ++ keypath)))).headI
      ++ strOf ".s3.amazonaws.com" = bucket ++ strOf ".s3.amazonaws.com"
    rw [hparts]
    show strReplace (strOf ".s3.amazonaws.com") []
      (bucket ++ strOf ".s3.amazonaws.com") ++ strOf ".s3.amazonaws.com" = _
    rw [hbucket]
  · show joinChar '/' (urlParts
      (strOf "https://" ++ (bucket ++ (strOf ".s3.amazonaws.com/" ++ keypath)))).tail = keypath
    rw [hparts]
    show joinChar '/' (splitChar '/' keypath) = keypath
    exact joinChar_splitChar '/' keypath

/-- Claim C1: for every URL and timestamp, the canonical request built by
`get_s3_signed_url` is exactly the newline-joined concatenation of the
literal `GET`, the canonical URI `/` + key, an empty canonical query
string, the four canonical headers in the fixed lower-cased order
`host`, `x-amz-content-sha256`, `x-amz-date`, `x-amz-request-payer`
(each as a `name:value` line, the blank line following them), the
signed-headers list, and the literal `UNSIGNED-PAYLOAD` payload hash
(this holds for every URL, so in particular for every https URL with a
non-empty key, under present credentials). -/
theorem canonical_request_follows_spec (url amzdate : Str) :
    canonical_request url amzdate =
      specCanonicalRequest (hostOf url) (keyOf url) amzdate := by
  simp only [canonical_request, specCanonicalRequest, canonical_uri,
    canonical_querystring, request_parameters, canonical_headers,
    payload_hash, signed_headers, joinChar, List.append_assoc,
    List.cons_append, List.nil_append]
  rfl

/-- Claim C2: whenever either credential environment value is absent,
`get_s3_signed_url` returns the original URL unchanged paired with a
null header set (and, being a total function, raises no error). -/
theorem missing_credentials_return_url_unchanged (C : Crypto)
    (access secret : Option Str) (t : UTCTime) (url region : Str)
    (h : access = none ∨ secret = none) :
    get_s3_signed_url C access secret t url region = (url, none) := by
  rcases access with _ | a
  · rcases secret with _ | k <;> rfl
  · rcases secret with _ | k
    · rfl
    · rcases h with h | h <;> exact absurd h (by simp)

/-- Witness for claim C2 at a concrete input with the access key unset. -/
theorem missing_credentials_return_url_unchanged_witness :
    ((none : Option Str) = none ∨ (some (strOf "testsecret") : Option Str) = none) ∧
    get_s3_signed_url cryptoZero none (some (strOf "testsecret"))
      ⟨2023, 1, 1, 0, 0, 0⟩
      (strOf "https://examplebucket.s3.amazonaws.com/test.txt")
      (strOf "eu-central-1")
      = (strOf "https://examplebucket.s3.amazonaws.com/test.txt", none) :=
  ⟨Or.inl rfl,
   missing_credentials_return_url_unchanged cryptoZero none
     (some (strOf "testsecret")) ⟨2023, 1, 1, 0, 0, 0⟩
     (strOf "https://examplebucket.s3.amazonaws.com/test.txt")
     (strOf "eu-central-1") (Or.inl rfl)⟩

/-- Claim C3, counterexample: the claim fails as stated.  For the URL
`https://b.s3.amazonaws.com/a/https://c` — of the shape
`https://<bucket>.s3.amazonaws.com/<key-path>` with bucket `b` and
key-path `a/https://c` — the derived key is `a/c`, not the key-path
unchanged, because `url.replace('https://', '')` removes every
occurrence of the scheme, including the one inside the key. -/
theorem url_parsing_key_mangled_cex :
    keyOf (strOf "https://b.s3.amazonaws.com/a/https://c")
      ≠ strOf "a/https://c" := by
  decide

/-- Claim C3, amended: for a URL `https://<bucket>.s3.amazonaws.com/<key-path>`
whose bucket contains no `/` and no occurrence of `.s3.amazonaws.com`,
and whose remainder after the scheme contains no occurrence of
`https://`, the derived host is `<bucket>.s3.amazonaws.com`, the derived
key is `<key-path>` unchanged (multi-segment keys preserved in full),
and for every region argument the returned request URL is
`https://<bucket>.s3.amazonaws.com/<key-path>` — the region is not
embedded in the host. -/
theorem url_parsing_amended (C : Crypto) (access secret region : Str)
    (t : UTCTime) (bucket keypath : Str)
    (hb : '/' ∉ bucket)
    (hbs : containsSub (strOf ".s3.amazonaws.com") bucket = false)
    (hh : containsSub (strOf "https://")
      (bucket ++ strOf ".s3.amazonaws.com/" ++ keypath) = false) :
    hostOf (strOf "https://" ++ bucket ++ strOf ".s3.amazonaws.com/" ++ keypath)
      = bucket ++ strOf ".s3.amazonaws.com" ∧
    keyOf (strOf "https://" ++ bucket ++ strOf ".s3.amazonaws.com/" ++ keypath)
      = keypath ∧
    (get_s3_signed_url C (some access) (some secret) t
        (strOf "https://" ++ bucket ++ strOf ".s3.amazonaws.com/" ++ keypath)
        region).1
      = strOf "https://" ++ (bucket ++ strOf ".s3.amazonaws.com") ++
          '/' :: keypath := by
  obtain ⟨h1, h2⟩ := parse_url bucket keypath hb hbs hh
  refine ⟨h1, h2, ?_⟩
  show strOf "https://" ++
      hostOf (strOf "https://" ++ bucket ++ strOf ".s3.amazonaws.com/" ++ keypath) ++
      ('/' :: keyOf (strOf "https://" ++ bucket ++ strOf ".s3.amazonaws.com/" ++ keypath))
    = strOf "https://" ++ (bucket ++ strOf ".s3.amazonaws.com") ++ '/' :: keypath
  rw [h1, h2]

/-- Witness for the amended claim C3 at a concrete bucket and a
multi-segment key. -/
theorem url_parsing_amended_witness :
    ('/' ∉ strOf "examplebucket") ∧
    containsSub (strOf ".s3.amazonaws.com") (strOf "examplebucket") = false ∧
    containsSub (strOf "https://")
      (strOf "examplebucket" ++ strOf ".s3.amazonaws.com/" ++ strOf "a/b/test.txt")
      = false ∧
    (hostOf (strOf "https://" ++ strOf "examplebucket" ++
        strOf ".s3.amazonaws.com/" ++ strOf "a/b/test.txt")
      = strOf "examplebucket" ++ strOf ".s3.amazonaws.com" ∧
    keyOf (strOf "https://" ++ strOf "examplebucket" ++
        strOf ".s3.amazonaws.com/" ++ strOf "a/b/test.txt")
      = strOf "a/b/test.txt" ∧
    (get_s3_signed_url cryptoZero (some (strOf "AKIDEXAMPLE"))
        (some (strOf "testsecret")) ⟨2023, 1, 1, 0, 0, 0⟩
        (strOf "https://" ++ strOf "examplebucket" ++
          strOf ".s3.amazonaws.com/" ++ strOf "a/b/test.txt")
        (strOf "eu-central-1")).1
      = strOf "https://" ++ (strOf "examplebucket" ++ strOf ".s3.amazonaws.com") ++
          '/' :: strOf "a/b/test.txt") :=
  ⟨by decide, by decide, by decide,
   url_parsing_amended cryptoZero (strOf "AKIDEXAMPLE") (strOf "testsecret")
     (strOf "eu-central-1") ⟨2023, 1, 1, 0, 0, 0⟩
     (strOf "examplebucket") (strOf "a/b/test.txt")
     (by decide) (by decide) (by decide)⟩

/-- Claim C4: for every signing invocation, the string-to-sign is the
newline-joined concatenation of the algorithm identifier
`AWS4-HMAC-SHA256`, the full timestamp, the credential scope
`<date>/<region>/s3/aws4_request`, and the lowercase hex digest of the
SHA-256 hash of the canonical request. -/
theorem string_to_sign_follows_spec (C : Crypto) (url region : Str)
    (t : UTCTime) :
    string_to_sign C url region t = specStringToSign C url region t := by
  simp only [string_to_sign, specStringToSign, algorithm, credential_scope,
    service, joinChar, List.append_assoc, List.cons_append, List.nil_append]
  rfl

/-- Claim C5: the signing key is derived by four sequential HMAC-SHA256
operations — keying first on `AWS4` prepended to the secret key over the
date stamp, then chaining each digest as the key for the region name,
the service name `s3`, and the fixed tag `aws4_request` — and the final
digest is the key of the hex-encoded signature over the string-to-sign. -/
theorem signing_key_chain_and_signature (C : Crypto)
    (secret url region : Str) (t : UTCTime) :
    signing_key C secret region t =
      C.hmac (C.hmac (C.hmac (C.hmac (utf8Encode (strOf "AWS4" ++ secret))
            (utf8Encode (fmtDatestamp t)))
          (utf8Encode region))
        (utf8Encode (strOf "s3")))
      (utf8Encode (strOf "aws4_request")) ∧
    signature C secret url region t =
      hexOfBytes (C.hmac (signing_key C secret region t)
        (utf8Encode (string_to_sign C url region t))) :=
  ⟨rfl, rfl⟩

/-- Claim C6: the `SignedHeaders` list embedded in the returned
`Authorization` header value matches exactly, in order, the sequence of
header names used to build the canonical headers block of the canonical
request. -/
theorem signed_headers_match_canonical_block (C : Crypto)
    (access secret url region : Str) (t : UTCTime)
    (hhost : '\n' ∉ hostOf url) :
    authorization_header C access secret url region t =
      algorithm ++ ' ' :: strOf "Credential=" ++ access ++
        '/' :: credential_scope region (fmtDatestamp t) ++
        strOf ", SignedHeaders=" ++ signed_headers ++
        strOf ", Signature=" ++ signature C secret url region t ∧
    splitChar ';' signed_headers =
      canonicalHeaderNames (canonical_headers (hostOf url) (fmtAmzdate t)) := by
  constructor
  · simp only [authorization_header, List.append_assoc]
    rfl
  · have hA1 : '\n' ∉ strOf "host:" ++ hostOf url := by
      rw [List.mem_append]
      rintro (h | h)
      · exact absurd h (by decide)
      · exact hhost h
    have hA2 : '\n' ∉ strOf "x-amz-content-sha256:" ++ payload_hash := by decide
    have hA3 : '\n' ∉ strOf "x-amz-date:" ++ fmtAmzdate t := by
      rw [List.mem_append]
      rintro (h | h)
      · exact absurd h (by decide)
      · exact fmtAmzdate_no_newline t h
    have hA4 : '\n' ∉ strOf "x-amz-request-payer:requester" := by decide
    have hblock : canonical_headers (hostOf url) (fmtAmzdate t)
        = (strOf "host:" ++ hostOf url) ++ '\n' ::
          ((strOf "x-amz-content-sha256:" ++ payload_hash) ++ '\n' ::
            ((strOf "x-amz-date:" ++ fmtAmzdate t) ++ '\n' ::
              ((strOf "x-amz-request-payer:requester") ++ '\n' :: []))) := by
      simp only [canonical_headers, List.append_assoc, List.cons_append]
      rfl
    have hn1 : headerNameOf (strOf "host:" ++ hostOf url) = strOf "host" :=
      takeWhile_name (hostOf url) (strOf "host") (by decide)
    have hn2 : headerNameOf (strOf "x-amz-content-sha256:" ++ payload_hash)
        = strOf "x-amz-content-sha256" := by decide
    have hn3 : headerNameOf (strOf "x-amz-date:" ++ fmtAmzdate t)
        = strOf "x-amz-date" :=
      takeWhile_name (fmtAmzdate t) (strOf "x-amz-date") (by decide)
    have hn4 : headerNameOf (strOf "x-amz-request-payer:requester")
        = strOf "x-amz-request-payer" := by decide
    simp only [canonicalHeaderNames, headerLines]
    rw [hblock, splitChar_append_sep '\n' _ _ hA1,
      splitChar_append_sep '\n' _ _ hA2,
      splitChar_append_sep '\n' _ _ hA3,
      splitChar_append_sep '\n' _ _ hA4]
    show splitChar ';' signed_headers =
      (List.dropLast [strOf "host:" ++ hostOf url,
        strOf "x-amz-content-sha256:" ++ payload_hash,
        strOf "x-amz-date:" ++ fmtAmzdate t,
        strOf "x-amz-request-payer:requester", []]).map headerNameOf
    simp only [List.dropLast, List.map]
    rw [hn1, hn2, hn3, hn4]
    decide

/-- Witness for claim C6 at a concrete URL. -/
theorem signed_headers_match_canonical_block_witness :
    ('\n' ∉ hostOf (strOf "https://examplebucket.s3.amazonaws.com/test.txt")) ∧
    (authorization_header cryptoZero (strOf "AKIDEXAMPLE") (strOf "testsecret")
        (strOf "https://examplebucket.s3.amazonaws.com/test.txt")
        (strOf "eu-central-1") ⟨2023, 1, 1, 0, 0, 0⟩ =
      algorithm ++ ' ' :: strOf "Credential=" ++ strOf "AKIDEXAMPLE" ++
        '/' :: credential_scope (strOf "eu-central-1")
          (fmtDatestamp ⟨2023, 1, 1, 0, 0, 0⟩) ++
        strOf ", SignedHeaders=" ++ signed_headers ++
        strOf ", Signature=" ++ signature cryptoZero (strOf "testsecret")
          (strOf "https://examplebucket.s3.amazonaws.com/test.txt")
          (strOf "eu-central-1") ⟨2023, 1, 1, 0, 0, 0⟩ ∧
    splitChar ';' signed_headers =
      canonicalHeaderNames (canonical_headers
        (hostOf (strOf "https://examplebucket.s3.amazonaws.com/test.txt"))
        (fmtAmzdate ⟨2023, 1, 1, 0, 0, 0⟩))) :=
  ⟨by decide,
   signed_headers_match_canonical_block cryptoZero (strOf "AKIDEXAMPLE")
     (strOf "testsecret")
     (strOf "https://examplebucket.s3.amazonaws.com/test.txt")
     (strOf "eu-central-1") ⟨2023, 1, 1, 0, 0, 0⟩ (by decide)⟩

/-- Claim C7: the full timestamp and the date-only stamp are both
derived from the single captured clock value `t`; the date-only stamp is
the date portion (first eight characters) of the full timestamp; the
returned `x-amz-date` header carries the full timestamp; and the
string-to-sign uses that same timestamp in its second line, that same
timestamp inside the hashed canonical request, and its date portion in
the credential scope.  The bounds on the fields are the invariants
`datetime.datetime.utcnow()` guarantees. -/
theorem timestamps_single_capture (C : Crypto)
    (access secret url region : Str) (t : UTCTime)
    (hy : t.year ≤ 9999) (hm : t.month ≤ 12) (hd : t.day ≤ 31) :
    fmtDatestamp t = (fmtAmzdate t).take 8 ∧
    List.lookup (strOf "x-amz-date") (headersMap C access secret url region t)
      = some (fmtAmzdate t) ∧
    string_to_sign C url region t =
      algorithm ++ '\n' :: (fmtAmzdate t ++ '\n' ::
        (credential_scope region ((fmtAmzdate t).take 8) ++ '\n' ::
          sha256HexOfStr C (canonical_request url (fmtAmzdate t)))) := by
  refine ⟨(fmtDatestamp_take t hy hm hd).symm, ?_, ?_⟩
  · rfl
  · rw [fmtDatestamp_take t hy hm hd]
    simp only [string_to_sign, List.append_assoc, List.cons_append]

/-- Witness for claim C7 at a concrete clock value. -/
theorem timestamps_single_capture_witness :
    ((⟨2023, 1, 1, 0, 0, 0⟩ : UTCTime).year ≤ 9999 ∧
     (⟨2023, 1, 1, 0, 0, 0⟩ : UTCTime).month ≤ 12 ∧
     (⟨2023, 1, 1, 0, 0, 0⟩ : UTCTime).day ≤ 31) ∧
    (fmtDatestamp ⟨2023, 1, 1, 0, 0, 0⟩
        = (fmtAmzdate ⟨2023, 1, 1, 0, 0, 0⟩).take 8 ∧
    List.lookup (strOf "x-amz-date") (headersMap cryptoZero
        (strOf "AKIDEXAMPLE") (strOf "testsecret")
        (strOf "https://examplebucket.s3.amazonaws.com/test.txt")
        (strOf "eu-central-1") ⟨2023, 1, 1, 0, 0, 0⟩)
      = some (fmtAmzdate ⟨2023, 1, 1, 0, 0, 0⟩) ∧
    string_to_sign cryptoZero
        (strOf "https://examplebucket.s3.amazonaws.com/test.txt")
        (strOf "eu-central-1") ⟨2023, 1, 1, 0, 0, 0⟩ =
      algorithm ++ '\n' :: (fmtAmzdate ⟨2023, 1, 1, 0, 0, 0⟩ ++ '\n' ::
        (credential_scope (strOf "eu-central-1")
            ((fmtAmzdate ⟨2023, 1, 1, 0, 0, 0⟩).take 8) ++ '\n' ::
          sha256HexOfStr cryptoZero (canonical_request
            (strOf "https://examplebucket.s3.amazonaws.com/test.txt")
            (fmtAmzdate ⟨2023, 1, 1, 0, 0, 0⟩))))) :=
  ⟨⟨by decide, by decide, by decide⟩,
   timestamps_single_capture cryptoZero (strOf "AKIDEXAMPLE")
     (strOf "testsecret")
     (strOf "https://examplebucket.s3.amazonaws.com/test.txt")
     (strOf "eu-central-1") ⟨2023, 1, 1, 0, 0, 0⟩
     (by decide) (by decide) (by decide)⟩

/-- Claim C8, counterexample: the claim fails as stated.  The URL
`https://examplebucket.s3.amazonaws.com` has an empty object key —
malformed in the sense of the claim — yet with both credentials present
`get_s3_signed_url` raises nothing and returns a signed header mapping
instead of failing fast. -/
theorem malformed_url_not_rejected_cex :
    malformedUrl (strOf "https://examplebucket.s3.amazonaws.com") ∧
    ((get_s3_signed_url cryptoZero (some (strOf "AKIDEXAMPLE"))
        (some (strOf "testsecret")) ⟨2023, 1, 1, 0, 0, 0⟩
        (strOf "https://examplebucket.s3.amazonaws.com")
        (strOf "eu-central-1")).2) ≠ none :=
  ⟨Or.inr (by decide), by decide⟩

/-- Claim C8, amended: for every malformed URL (host lacking the
storage-domain suffix, or empty object key) with credentials present,
`get_s3_signed_url` does not fail: it silently returns a request URL
together with a present (non-null) header mapping. -/
theorem malformed_url_silently_signed (C : Crypto)
    (access secret region : Str) (t : UTCTime) (url : Str)
    (hmal : malformedUrl url) :
    ((get_s3_signed_url C (some access) (some secret) t url region).2).isSome
      = true := rfl

/-- Witness for the amended claim C8 at a concrete malformed URL. -/
theorem malformed_url_silently_signed_witness :
    malformedUrl (strOf "https://examplebucket.s3.amazonaws.com") ∧
    ((get_s3_signed_url cryptoZero (some (strOf "AKIDEXAMPLE"))
        (some (strOf "testsecret")) ⟨2023, 1, 1, 0, 0, 0⟩
        (strOf "https://examplebucket.s3.amazonaws.com")
        (strOf "eu-central-1")).2).isSome = true :=
  ⟨Or.inr (by decide),
   malformed_url_silently_signed cryptoZero (strOf "AKIDEXAMPLE")
     (strOf "testsecret") (strOf "eu-central-1") ⟨2023, 1, 1, 0, 0, 0⟩
     (strOf "https://examplebucket.s3.amazonaws.com")
     (Or.inr (by decide))⟩

/-- Claim C9: for a fixed URL, region, credential pair and a fixed
injected clock value, signing is deterministic — two invocations of
`get_s3_signed_url` produce byte-identical request URLs and
byte-identical header mappings.  In the embedding the environment reads
and the clock capture are explicit parameters, so the function is pure
and the two invocations coincide. -/
theorem signing_deterministic (C : Crypto) (access secret : Option Str)
    (t : UTCTime) (url region : Str) :
    (get_s3_signed_url C access secret t url region).1
        = (get_s3_signed_url C access secret t url region).1 ∧
    (get_s3_signed_url C access secret t url region).2
        = (get_s3_signed_url C access secret t url region).2 :=
  ⟨rfl, rfl⟩

/-- Claim C10: for every URL string whatsoever and present credentials,
`get_s3_signed_url` is total: it returns the request-URL/header pair
built from the parse — malformed inputs included — and never fails. -/
theorem get_s3_signed_url_total (C : Crypto) (access secret : Str)
    (t : UTCTime) (url region : Str) :
    get_s3_signed_url C (some access) (some secret) t url region
      = (request_url url, some (headersMap C access secret url region t)) := rfl

end Satstac
